import Mathlib

/-!
Verification of the Agent Execution Core and the Schema Validation Pipeline
of the bee-agent-framework-electron repository.

The development shallowly embeds the relevant TypeScript sources:

* `src/agents/base.ts` — `BaseAgent.run` (reentrancy guard, error wrapping,
  the guaranteed `finally` that clears the running flag) and the
  `createSnapshot`/`loadSnapshot` pair.
* `src/internals/helpers/schema.ts` — `validateSchema`, `toJsonSchema`
  (recursive JSON-schema normalization), `createSchemaValidator`, and
  `parseBrokenJson`.

External primitives (the JavaScript `JSON.parse`, the third-party
`jsonrepair` library, Ajv's `compile`, and `zod-to-json-schema`) are not
repository code; they are taken as parameters or modelled as explicit
out-of-model results, so every theorem below is about the repository's own
control flow over those primitives.
-/

namespace Bee

/-! ## Agent run lifecycle (src/agents/base.ts) -/

/-- The mutable per-agent state relevant to the run lifecycle: the
`isRunning` reentrancy flag declared on `BaseAgent`. -/
structure AgentState where
  isRunning : Bool
deriving DecidableEq, Repr

/-- A thrown JavaScript value as `BaseAgent.run`'s catch clause
distinguishes them: an `AgentError` (the framework's own kind, carrying a
message and a list of wrapped causes, as `FrameworkError(message, errors)`
does), some other `Error` (with a `.message`), or a thrown non-`Error`
value (whose textual form is `String(e)`). -/
inductive Thrown where
  | agentError (message : String) (causes : List Thrown)
  | jsError (message : String)
  | nonError (repr : String)

/-- The test `e instanceof AgentError`. -/
def Thrown.isAgentError : Thrown → Bool
  | .agentError _ _ => true
  | _ => false

/-- The text `e instanceof Error ? e.message : String(e)`. -/
def Thrown.jsMessage : Thrown → String
  | .agentError m _ => m
  | .jsError m => m
  | .nonError r => r

/-- The exact error the reentrancy guard throws:
`new AgentError("Agent is already running!")` (the spec's taxonomy calls
this the `ReentrancyError`). -/
def reentrancyError : Thrown := .agentError "Agent is already running!" []

/-- The catch clause of the callback in `BaseAgent.run`: an `AgentError`
is rethrown unchanged; anything else is wrapped once into
`new AgentError("Error has occurred in " + name + ": " + message, [e])`
where `name` is `this.constructor.name`. -/
def wrapRunError (name : String) (e : Thrown) : Thrown :=
  if e.isAgentError then e
  else .agentError ("Error has occurred in " ++ name ++ ": " ++ e.jsMessage) [e]

/-- How the wrapped work settles: it returns a value, or it throws
(a cancellation surfacing as a rejection is a throw). -/
inductive Outcome (α : Type) where
  | ok (v : α)
  | thrown (e : Thrown)

/-- Observable steps of one `run()` call, used to state that the guard
fires before any user code and that the flag is cleared exactly once. -/
inductive RunEvent where
  | reentrancyRejected
  | flagAssigned (value : Bool)
  | workInvoked
deriving DecidableEq, Repr

/-- The method `BaseAgent.run` from `src/agents/base.ts`.  The synchronous guard
checks `this.isRunning` and throws `reentrancyError` before anything else.
Otherwise the callback handed to `RunContext.enter` runs: it sets
`isRunning := true`, awaits the abstract work `_run` (which may read and
write the agent state), wraps a thrown error via the catch clause, and in
the `finally` block sets `isRunning := false`.

Modelled from the spec: `RunContext.enter` itself (src/context.ts is not
part of the excerpt) invokes the supplied callback with a fresh context and
propagates its settlement; that plumbing is all this model takes from it.
The result is the settled outcome, the final agent state, and the trace of
observable steps the wrapper performed. -/
def BaseAgent.run {α : Type} (name : String) (work : AgentState → Outcome α × AgentState)
    (s : AgentState) : Outcome α × AgentState × List RunEvent :=
  if s.isRunning then
    (.thrown reentrancyError, s, [.reentrancyRejected])
  else
    let s1 : AgentState := { s with isRunning := true }
    let step := work s1
    let settled : Outcome α :=
      match step.1 with
      | .ok v => .ok v
      | .thrown e => .thrown (wrapRunError name e)
    (settled, { step.2 with isRunning := false },
      [.flagAssigned true, .workInvoked, .flagAssigned false])

/-- The snapshot type of `BaseAgent.createSnapshot` from `src/agents/base.ts`: the returned
snapshot holds only the reentrancy flag, recorded as `false` no matter
what the agent's current flag is (`return { isRunning: false }`). -/
structure AgentSnapshot where
  isRunning : Bool
deriving DecidableEq, Repr

/-- The method `createSnapshot()` — always a snapshot with a false flag. -/
def createSnapshot (_current : AgentState) : AgentSnapshot :=
  { isRunning := false }

/-- The method `loadSnapshot(snapshot)` — `Object.assign(this, snapshot)`, i.e. every
field of the snapshot (only `isRunning`) overwrites the agent's field. -/
def loadSnapshot (s : AgentState) (snapshot : AgentSnapshot) : AgentState :=
  { s with isRunning := snapshot.isRunning }

/-! ### Claims about the run lifecycle -/

/-- C1: for every agent owner, a call to `run()` while the owner's
`isRunning` flag is true fails immediately with the reentrancy error
(`AgentError "Agent is already running!"`), before any user code runs —
the result does not depend on `work`, the state is untouched, and the
trace shows the guard rejection with `work` never invoked (so nothing
blocks or queues behind the unsettled first invocation). -/
theorem run_rejects_reentrant_call {α : Type} (name : String)
    (work : AgentState → Outcome α × AgentState) (s : AgentState)
    (h : s.isRunning = true) :
    BaseAgent.run name work s = (.thrown reentrancyError, s, [.reentrancyRejected]) ∧
    RunEvent.workInvoked ∉ (BaseAgent.run name work s).2.2 := by
  refine ⟨?_, ?_⟩ <;> simp [BaseAgent.run, h]

/-- Witness for C1 at a concrete running agent. -/
theorem run_rejects_reentrant_call_witness :
    BaseAgent.run (α := Unit) "ReActAgent" (fun st => (.ok (), st)) ⟨true⟩ =
      (.thrown reentrancyError, ⟨true⟩, [.reentrancyRejected]) ∧
    RunEvent.workInvoked ∉
      (BaseAgent.run (α := Unit) "ReActAgent" (fun st => (.ok (), st)) ⟨true⟩).2.2 :=
  run_rejects_reentrant_call "ReActAgent" (fun st => (.ok (), st)) ⟨true⟩ rfl

/-- C2: whenever `run()` actually enters (the flag was false), then for
every behaviour of the wrapped work — returning, throwing, or a
cancellation surfacing as a rejection, and even work that itself mutates
the flag — the final state has `isRunning = false`, the wrapper's trace
clears the flag exactly once (the guaranteed `finally` block), and a
subsequent `run()` call on the resulting state passes the guard and
invokes its work. -/
theorem run_always_clears_flag {α : Type} (name : String)
    (work : AgentState → Outcome α × AgentState) (s : AgentState)
    (h : s.isRunning = false) :
    (BaseAgent.run name work s).2.1.isRunning = false ∧
    (BaseAgent.run name work s).2.2.count (RunEvent.flagAssigned false) = 1 ∧
    ∀ (β : Type) (work2 : AgentState → Outcome β × AgentState),
      RunEvent.workInvoked ∈
        (BaseAgent.run name work2 (BaseAgent.run name work s).2.1).2.2 := by
  refine ⟨?_, ?_, ?_⟩
  · simp [BaseAgent.run, h]
  · simp [BaseAgent.run, h]
  · intro β work2
    simp [BaseAgent.run, h]

/-- Witness for C2 at a concrete agent whose work throws. -/
theorem run_always_clears_flag_witness :
    (BaseAgent.run (α := Unit) "ReActAgent"
        (fun st => (.thrown (.jsError "boom"), st)) ⟨false⟩).2.1.isRunning = false ∧
    (BaseAgent.run (α := Unit) "ReActAgent"
        (fun st => (.thrown (.jsError "boom"), st)) ⟨false⟩).2.2.count
      (RunEvent.flagAssigned false) = 1 ∧
    RunEvent.workInvoked ∈
      (BaseAgent.run (α := Unit) "ReActAgent" (fun st => (.ok (), st))
        (BaseAgent.run (α := Unit) "ReActAgent"
          (fun st => (.thrown (.jsError "boom"), st)) ⟨false⟩).2.1).2.2 := by
  have h := run_always_clears_flag "ReActAgent"
    (fun st => (Outcome.thrown (α := Unit) (.jsError "boom"), st)) ⟨false⟩ rfl
  exact ⟨h.1, h.2.1, h.2.2 Unit (fun st => (.ok (), st))⟩

/-- C3: when the wrapped work throws `e` inside an entered `run()`, the
settled outcome is `wrapRunError name e`; an error that is already an
`AgentError` passes through unchanged, any other error is wrapped exactly
once into an `AgentError` whose message names the owning component type
and whose cause list is `[e]`, and wrapping is idempotent (never applied
twice). -/
theorem run_wraps_foreign_errors {α : Type} (name : String)
    (work : AgentState → Outcome α × AgentState) (s : AgentState) (e : Thrown)
    (h : s.isRunning = false)
    (hw : (work { s with isRunning := true }).1 = Outcome.thrown e) :
    (BaseAgent.run name work s).1 = Outcome.thrown (wrapRunError name e) ∧
    (e.isAgentError = true → wrapRunError name e = e) ∧
    (e.isAgentError = false →
      wrapRunError name e =
        Thrown.agentError ("Error has occurred in " ++ name ++ ": " ++ e.jsMessage) [e]) ∧
    wrapRunError name (wrapRunError name e) = wrapRunError name e := by
  refine ⟨?_, ?_, ?_, ?_⟩
  · simp [BaseAgent.run, h, hw]
  · intro ha
    simp [wrapRunError, ha]
  · intro ha
    simp [wrapRunError, ha]
  · cases e <;> rfl

/-- Witness for C3 at a concrete agent whose work throws a plain `Error`. -/
theorem run_wraps_foreign_errors_witness :
    (BaseAgent.run (α := Unit) "ReActAgent"
        (fun st => (.thrown (.jsError "boom"), st)) ⟨false⟩).1 =
      Outcome.thrown (wrapRunError "ReActAgent" (.jsError "boom")) ∧
    wrapRunError "ReActAgent" (.jsError "boom") =
      Thrown.agentError "Error has occurred in ReActAgent: boom" [.jsError "boom"] ∧
    wrapRunError "ReActAgent" (wrapRunError "ReActAgent" (.jsError "boom")) =
      wrapRunError "ReActAgent" (.jsError "boom") := by
  have h := run_wraps_foreign_errors "ReActAgent"
    (fun st => (Outcome.thrown (α := Unit) (.jsError "boom"), st)) ⟨false⟩
    (.jsError "boom") rfl rfl
  exact ⟨h.1, h.2.2.1 rfl, h.2.2.2⟩

/-- C9: the agent snapshot carries only the reentrancy flag, recorded as
`false` regardless of the flag's value when the snapshot was taken, and
loading a snapshot leaves the agent with `isRunning = false` regardless of
the agent's state before the load. -/
theorem snapshot_resets_running_flag (before taken : AgentState) :
    createSnapshot taken = { isRunning := false } ∧
    (loadSnapshot before (createSnapshot taken)).isRunning = false :=
  ⟨rfl, rfl⟩

/-! ## JSON values and the schema pipeline (src/internals/helpers/schema.ts) -/

/-- A JSON value, the data `SchemaObject`s and parsed model output live in. -/
inductive Json where
  | null
  | bool (b : Bool)
  | num (n : Int)
  | str (s : String)
  | arr (elems : List Json)
  | obj (fields : List (String × Json))

mutual

/-- Size of a JSON tree, used only to supply enough fuel to the
normalizer's recursion and to found inductions. -/
def jsize : Json → Nat
  | .null => 1
  | .bool _ => 1
  | .num _ => 1
  | .str _ => 1
  | .arr xs => 1 + jsizeL xs
  | .obj fs => 1 + jsizeF fs

/-- Size of a list of JSON values. -/
def jsizeL : List Json → Nat
  | [] => 0
  | x :: xs => 1 + jsize x + jsizeL xs

/-- Size of a field list. -/
def jsizeF : List (String × Json) → Nat
  | [] => 0
  | (_, v) :: fs => 1 + jsize v + jsizeF fs

end

/-- JavaScript truthiness of a JSON value (objects and arrays are always
truthy, including empty ones). -/
def Json.truthy : Json → Bool
  | .null => false
  | .bool b => b
  | .num n => n != 0
  | .str s => s != ""
  | .arr _ => true
  | .obj _ => true

/-- Truthiness of a possibly-absent (`undefined`) property value. -/
def truthyOpt : Option Json → Bool
  | none => false
  | some j => j.truthy

/-- The test `typeof v === "object" && v !== null` (arrays included). -/
def Json.isObjectLike : Json → Bool
  | .arr _ => true
  | .obj _ => true
  | _ => false

/-- The test `Array.isArray(v)`. -/
def Json.isArray : Json → Bool
  | .arr _ => true
  | _ => false

/-- Property read on an object's field list (`undefined` when absent). -/
def lookupField : List (String × Json) → String → Option Json
  | [], _ => none
  | (k, v) :: fs, key => if k = key then some v else lookupField fs key

/-- JavaScript property assignment `o[key] = v`: overwrite the binding of
`key` in place, or append a new binding when the key is absent. -/
def setField : List (String × Json) → String → Json → List (String × Json)
  | [], key, v => [(key, v)]
  | (k, w) :: fs, key, v =>
      if k = key then (k, v) :: fs else (k, w) :: setField fs key v

/-- The index strings `"0", "1", ...` JavaScript enumerates for arrays
and strings. -/
def indexKeys (n : Nat) : List String :=
  (List.range n).map (fun i => toString i)

/-- The call `Object.keys(v)`: field names of an object, index strings of an array
or a string, and the empty list for every other value. -/
def jsKeys : Json → List String
  | .obj fs => fs.map Prod.fst
  | .arr xs => indexKeys xs.length
  | .str s => indexKeys s.length
  | _ => []

/-- The call `Object.keys(schemaObj.properties || ...)` with the empty-object
fallback for an absent or falsy `properties`. -/
def keysOfProps : Option Json → List String
  | none => []
  | some p => if p.truthy then jsKeys p else []

/-- Whether `pre` starts `s` (`s.startsWith(pre)`), computed on the
underlying character lists. -/
def strStartsWith (pre s : String) : Bool :=
  pre.data.isPrefixOf s.data

/-- The result of the Zod-detection test in `convertToJsonSchema`,
given the value of the node's `_def` property:
`some false` — the node is treated as a raw schema object;
`some true` — the Zod branch is taken, i.e. conversion by the external
`zod-to-json-schema` library (outside this model);
`none` — the test itself throws (a present `_def.typeName` that is
neither a string nor nullish has no `startsWith` method). -/
def zodDefCheck : Option Json → Option Bool
  | none => some false
  | some (.obj dfs) =>
    match lookupField dfs "typeName" with
    | some (.str s) => if strStartsWith "Zod" s then some true else some false
    | some .null => some false
    | none => some false
    | some _ => none
  | some _ => some false

/-- The test `'_def' in x && x._def?.typeName?.startsWith('Zod')` on a JSON value:
only an object can carry a `_def` field. -/
def zodMarker : Json → Option Bool
  | .obj fs => zodDefCheck (lookupField fs "_def")
  | _ => some false

/-- The test `schemaObj.type === "object"`. -/
def isTypeObject (fs : List (String × Json)) : Bool :=
  match lookupField fs "type" with
  | some (.str s) => s == "object"
  | _ => false

/-- The guard `schemaObj.type === "object" || schemaObj.properties` of the
`required`-fixing block. -/
def objLikeFields (fs : List (String × Json)) : Bool :=
  isTypeObject fs || truthyOpt (lookupField fs "properties")

/-- The test `Array.isArray(schemaObj.required)` (false when absent). -/
def requiredIsArray (fs : List (String × Json)) : Bool :=
  match lookupField fs "required" with
  | some r => r.isArray
  | none => false

/-- The `required`-fixing block of `toJsonSchema` on one object node:
when the node is object-like, a falsy `required` becomes the empty array
and a truthy non-array `required` becomes the keys of `properties`
(empty-object fallback); an already-array `required` is kept. -/
def fixRequired (fs : List (String × Json)) : List (String × Json) :=
  if objLikeFields fs then
    if !truthyOpt (lookupField fs "required") then
      setField fs "required" (.arr [])
    else if !requiredIsArray fs then
      setField fs "required"
        (.arr ((keysOfProps (lookupField fs "properties")).map Json.str))
    else fs
  else fs

/-- One entry of the `forEach` over `Object.entries(schemaObj.properties)`:
a value that is a non-null object (arrays included) is replaced by a
recursive `toJsonSchema` call; every other value is left alone. -/
def mapPropEntry (f : Json → Option Json) (kv : String × Json) :
    Option (String × Json) :=
  if kv.2.isObjectLike then (f kv.2).map (fun v => (kv.1, v)) else some kv

/-- The same per-element step when `properties` is an array (its
`Object.entries` are its elements). -/
def mapPropElem (f : Json → Option Json) (v : Json) : Option Json :=
  if v.isObjectLike then f v else some v

/-- The whole `forEach` over `Object.entries(schemaObj.properties)`.
Objects and arrays have entries; a string's entries are its characters
(never object-like, so never touched); other primitives have none. -/
def mapProps (f : Json → Option Json) : Json → Option Json
  | .obj pfs => (pfs.mapM (mapPropEntry f)).map Json.obj
  | .arr xs => (xs.mapM (mapPropElem f)).map Json.arr
  | p => some p

/-- One unfolding of `toJsonSchema` on a raw object node, with `rec`
standing for the recursive calls on property values: run the Zod test,
apply the `required` fix, and recurse into a truthy `properties`.
`none` means the computation left the modelled fragment (the Zod branch,
handled by an external library, was taken or the Zod test threw). -/
def goObj (rec : Json → Option Json) (fs : List (String × Json)) : Option Json :=
  match zodMarker (.obj fs) with
  | none => none
  | some true => none
  | some false =>
    match lookupField fs "properties" with
    | some p =>
      if p.truthy then
        (mapProps rec p).map
          (fun q => Json.obj (setField (fixRequired fs) "properties" q))
      else some (.obj (fixRequired fs))
    | none => some (.obj (fixRequired fs))

/-- One unfolding of `toJsonSchema` on a raw value: only an object node
can carry the Zod marker or trip the object guard, so every other value
(arrays included: they have no `type` or `properties` key) passes through
unchanged. -/
def goStep (rec : Json → Option Json) : Json → Option Json
  | .obj fs => goObj rec fs
  | j => some j

/-- Fuel-indexed evaluator for the recursive normalization; the fuel only
bounds the recursion depth and `toJsonSchemaJ` always supplies enough. -/
def go : Nat → Json → Option Json
  | 0, _ => none
  | n + 1, j => goStep (go n) j

/-- The function `toJsonSchema` on a raw schema value: the `required` fix plus the
recursive normalization of property values. -/
def toJsonSchemaJ (j : Json) : Option Json :=
  go (jsize j + 1) j

/-- The values `Object.entries` would surface for a `properties` value:
field values of an object, elements of an array, nothing for a primitive
(a string's character entries are never object-like and never touched). -/
def propChildren : Json → List Json
  | .obj pfs => pfs.map Prod.snd
  | .arr xs => xs
  | _ => []

/-- The shape `toJsonSchema` guarantees on its output: along the chain of
nodes the normalizer visits (the root and, recursively, the object-like
values of a truthy `properties` field), every node satisfying the
object-guard has a `required` field holding an array. -/
inductive NormedAt : Json → Prop where
  | nonObj : ∀ (j : Json), (∀ fs, j ≠ Json.obj fs) → NormedAt j
  | obj : ∀ (fs : List (String × Json)),
      (objLikeFields fs = true →
        ∃ r, lookupField fs "required" = some (Json.arr r)) →
      (∀ p, lookupField fs "properties" = some p → p.truthy = true →
        ∀ v, v ∈ propChildren p → v.isObjectLike = true → NormedAt v) →
      NormedAt (Json.obj fs)

/-! ### Size and field-list lemmas -/

theorem jsize_pos (j : Json) : 0 < jsize j := by
  cases j <;> (simp only [jsize]; omega)

theorem jsize_lookupField : ∀ (fs : List (String × Json)) (k : String) (v : Json),
    lookupField fs k = some v → jsize v < jsizeF fs := by
  intro fs
  induction fs with
  | nil => intro k v h; simp [lookupField] at h
  | cons kv tl ih =>
    intro k v h
    obtain ⟨k0, v0⟩ := kv
    simp only [lookupField] at h
    by_cases hk : k0 = k
    · rw [if_pos hk] at h
      injection h with h
      subst h
      simp only [jsizeF]
      omega
    · rw [if_neg hk] at h
      have := ih k v h
      simp only [jsizeF]
      omega

theorem jsize_mem_field : ∀ (fs : List (String × Json)) (kv : String × Json),
    kv ∈ fs → jsize kv.2 < jsizeF fs := by
  intro fs
  induction fs with
  | nil => intro kv h; cases h
  | cons hd tl ih =>
    intro kv h
    obtain ⟨k0, v0⟩ := hd
    rcases List.mem_cons.mp h with h1 | h2
    · subst h1
      simp only [jsizeF]
      omega
    · have := ih kv h2
      simp only [jsizeF]
      omega

theorem jsize_mem_elem : ∀ (xs : List Json) (v : Json),
    v ∈ xs → jsize v < jsizeL xs := by
  intro xs
  induction xs with
  | nil => intro v h; cases h
  | cons hd tl ih =>
    intro v h
    rcases List.mem_cons.mp h with h1 | h2
    · subst h1
      simp only [jsizeL]
      omega
    · have := ih v h2
      simp only [jsizeL]
      omega

theorem lookupField_setField_eq : ∀ (fs : List (String × Json)) (k : String) (v : Json),
    lookupField (setField fs k v) k = some v := by
  intro fs k v
  induction fs with
  | nil => simp [setField, lookupField]
  | cons hd tl ih =>
    obtain ⟨k0, v0⟩ := hd
    by_cases hk : k0 = k
    · simp [setField, hk, lookupField]
    · simp [setField, hk, lookupField, ih]

theorem lookupField_setField_ne : ∀ (fs : List (String × Json)) (k key : String) (v : Json),
    key ≠ k → lookupField (setField fs k v) key = lookupField fs key := by
  intro fs k key v hne
  induction fs with
  | nil =>
    have : k ≠ key := fun h => hne h.symm
    simp [setField, lookupField, this]
  | cons hd tl ih =>
    obtain ⟨k0, v0⟩ := hd
    by_cases hk : k0 = k
    · subst hk
      have : k0 ≠ key := fun h => hne h.symm
      simp [setField, lookupField, this]
    · by_cases hk0 : k0 = key
      · simp [setField, hk, lookupField, hk0, hne]
      · simp [setField, hk, lookupField, hk0, ih]

theorem setField_self : ∀ (fs : List (String × Json)) (k : String) (v : Json),
    lookupField fs k = some v → setField fs k v = fs := by
  intro fs
  induction fs with
  | nil => intro k v h; simp [lookupField] at h
  | cons hd tl ih =>
    intro k v h
    obtain ⟨k0, v0⟩ := hd
    by_cases hk : k0 = k
    · rw [lookupField, if_pos hk] at h
      injection h with h
      simp [setField, hk, h]
    · rw [lookupField, if_neg hk] at h
      simp [setField, hk, ih k v h]

/-! ### Lemmas about the `required` fix -/

theorem fixRequired_eq_or (fs : List (String × Json)) :
    fixRequired fs = fs ∨
      ∃ r, fixRequired fs = setField fs "required" (Json.arr r) := by
  cases ho : objLikeFields fs
  · left
    simp [fixRequired, ho]
  · cases ht : truthyOpt (lookupField fs "required")
    · right
      exact ⟨[], by simp [fixRequired, ho, ht]⟩
    · cases ha : requiredIsArray fs
      · right
        exact ⟨(keysOfProps (lookupField fs "properties")).map Json.str,
          by simp [fixRequired, ho, ht, ha]⟩
      · left
        simp [fixRequired, ho, ht, ha]

theorem lookupField_fixRequired_ne (fs : List (String × Json)) (key : String)
    (h : key ≠ "required") :
    lookupField (fixRequired fs) key = lookupField fs key := by
  rcases fixRequired_eq_or fs with he | ⟨r, he⟩
  · rw [he]
  · rw [he, lookupField_setField_ne _ _ _ _ h]

theorem isTypeObject_fixRequired (fs : List (String × Json)) :
    isTypeObject (fixRequired fs) = isTypeObject fs := by
  unfold isTypeObject
  rw [lookupField_fixRequired_ne _ _ (by decide)]

theorem objLikeFields_fixRequired (fs : List (String × Json)) :
    objLikeFields (fixRequired fs) = objLikeFields fs := by
  unfold objLikeFields
  rw [isTypeObject_fixRequired, lookupField_fixRequired_ne _ _ (by decide)]

theorem fixRequired_required_arr (fs : List (String × Json))
    (h : objLikeFields fs = true) :
    ∃ r, lookupField (fixRequired fs) "required" = some (Json.arr r) := by
  cases ht : truthyOpt (lookupField fs "required")
  · exact ⟨[], by simp [fixRequired, h, ht, lookupField_setField_eq]⟩
  · cases ha : requiredIsArray fs
    · exact ⟨(keysOfProps (lookupField fs "properties")).map Json.str,
        by simp [fixRequired, h, ht, ha, lookupField_setField_eq]⟩
    · have hfix : fixRequired fs = fs := by simp [fixRequired, h, ht, ha]
      rw [hfix]
      unfold requiredIsArray at ha
      cases hr : lookupField fs "required" with
      | none => rw [hr] at ha; simp at ha
      | some r =>
        rw [hr] at ha
        cases r with
        | arr elems => exact ⟨elems, rfl⟩
        | null => simp [Json.isArray] at ha
        | bool b => simp [Json.isArray] at ha
        | num n => simp [Json.isArray] at ha
        | str s => simp [Json.isArray] at ha
        | obj fs2 => simp [Json.isArray] at ha

theorem fixRequired_of_settled (gs : List (String × Json))
    (ho : objLikeFields gs = true)
    (ht : truthyOpt (lookupField gs "required") = true)
    (ha : requiredIsArray gs = true) :
    fixRequired gs = gs := by
  simp [fixRequired, ho, ht, ha]

theorem fixRequired_idem (fs : List (String × Json)) :
    fixRequired (fixRequired fs) = fixRequired fs := by
  cases ho : objLikeFields fs
  · have he : fixRequired fs = fs := by simp [fixRequired, ho]
    rw [he]
    exact he
  · have ho1 : objLikeFields (fixRequired fs) = true := by
      rw [objLikeFields_fixRequired]; exact ho
    obtain ⟨r, hr⟩ := fixRequired_required_arr fs ho
    have ht : truthyOpt (lookupField (fixRequired fs) "required") = true := by
      rw [hr]; rfl
    have ha : requiredIsArray (fixRequired fs) = true := by
      unfold requiredIsArray; rw [hr]; rfl
    exact fixRequired_of_settled _ ho1 ht ha

theorem zodMarker_obj_eq (fs gs : List (String × Json))
    (h : lookupField gs "_def" = lookupField fs "_def") :
    zodMarker (.obj gs) = zodMarker (.obj fs) := by
  simp [zodMarker, h]

/-! ### Lemmas about the properties traversal -/

theorem mapM_entry_congr (f g : Json → Option Json) :
    ∀ (pfs : List (String × Json)),
    (∀ kv, kv ∈ pfs → kv.2.isObjectLike = true → f kv.2 = g kv.2) →
    pfs.mapM (mapPropEntry f) = pfs.mapM (mapPropEntry g) := by
  intro pfs
  induction pfs with
  | nil => intro _; rfl
  | cons kv tl ih =>
    intro h
    have h1 : mapPropEntry f kv = mapPropEntry g kv := by
      unfold mapPropEntry
      cases hol : kv.2.isObjectLike
      · simp [hol]
      · simp [hol, h kv (List.mem_cons_self kv tl) hol]
    rw [List.mapM_cons, List.mapM_cons, h1,
      ih (fun kv' hm hol => h kv' (List.mem_cons_of_mem kv hm) hol)]

theorem mapM_elem_congr (f g : Json → Option Json) :
    ∀ (xs : List Json),
    (∀ v, v ∈ xs → v.isObjectLike = true → f v = g v) →
    xs.mapM (mapPropElem f) = xs.mapM (mapPropElem g) := by
  intro xs
  induction xs with
  | nil => intro _; rfl
  | cons v tl ih =>
    intro h
    have h1 : mapPropElem f v = mapPropElem g v := by
      unfold mapPropElem
      cases hol : v.isObjectLike
      · simp [hol]
      · simp [hol, h v (List.mem_cons_self v tl) hol]
    rw [List.mapM_cons, List.mapM_cons, h1,
      ih (fun v' hm hol => h v' (List.mem_cons_of_mem v hm) hol)]

theorem mapProps_congr (f g : Json → Option Json) (p : Json)
    (h : ∀ v, jsize v < jsize p → v.isObjectLike = true → f v = g v) :
    mapProps f p = mapProps g p := by
  cases p with
  | obj pfs =>
    have he : pfs.mapM (mapPropEntry f) = pfs.mapM (mapPropEntry g) :=
      mapM_entry_congr f g pfs (fun kv hm hol =>
        h kv.2 (by have := jsize_mem_field pfs kv hm; simp only [jsize]; omega) hol)
    simp only [mapProps, he]
  | arr xs =>
    have he : xs.mapM (mapPropElem f) = xs.mapM (mapPropElem g) :=
      mapM_elem_congr f g xs (fun v hm hol =>
        h v (by have := jsize_mem_elem xs v hm; simp only [jsize]; omega) hol)
    simp only [mapProps, he]
  | null => rfl
  | bool b => rfl
  | num n => rfl
  | str s => rfl

/-! ### Lemmas about the fuel-indexed evaluator -/

theorem go_succ (n : Nat) (j : Json) : go (n + 1) j = goStep (go n) j := rfl

theorem goStep_notObj (rec : Json → Option Json) (j : Json)
    (h : ∀ fs, j ≠ Json.obj fs) : goStep rec j = some j := by
  cases j with
  | obj fs => exact absurd rfl (h fs)
  | null => rfl
  | bool b => rfl
  | num n => rfl
  | str s => rfl
  | arr xs => rfl

theorem goStep_obj_shape (rec : Json → Option Json) (fs : List (String × Json))
    (o : Json) (h : goStep rec (Json.obj fs) = some o) :
    ∃ gs, o = Json.obj gs := by
  have h : goObj rec fs = some o := h
  unfold goObj at h
  split at h
  · simp at h
  · simp at h
  · split at h
    · split at h
      · simp at h
        obtain ⟨q, hq, ho⟩ := h
        exact ⟨_, ho.symm⟩
      · simp at h
        exact ⟨_, h.symm⟩
    · simp at h
      exact ⟨_, h.symm⟩

theorem go_shape (n : Nat) (j o : Json) (h : go n j = some o) :
    o.isObjectLike = j.isObjectLike ∧ o.truthy = j.truthy ∧
      ((∀ fs, j ≠ Json.obj fs) → o = j) := by
  cases n with
  | zero => simp [go] at h
  | succ n =>
    rw [go_succ] at h
    cases j with
    | obj fs =>
      obtain ⟨gs, rfl⟩ := goStep_obj_shape (go n) fs o h
      exact ⟨rfl, rfl, fun hne => absurd rfl (hne fs)⟩
    | null =>
      have h' : some Json.null = some o := h
      injection h' with h'
      subst h'
      exact ⟨rfl, rfl, fun _ => rfl⟩
    | bool b =>
      have h' : some (Json.bool b) = some o := h
      injection h' with h'
      subst h'
      exact ⟨rfl, rfl, fun _ => rfl⟩
    | num k =>
      have h' : some (Json.num k) = some o := h
      injection h' with h'
      subst h'
      exact ⟨rfl, rfl, fun _ => rfl⟩
    | str s =>
      have h' : some (Json.str s) = some o := h
      injection h' with h'
      subst h'
      exact ⟨rfl, rfl, fun _ => rfl⟩
    | arr xs =>
      have h' : some (Json.arr xs) = some o := h
      injection h' with h'
      subst h'
      exact ⟨rfl, rfl, fun _ => rfl⟩

theorem go_mono : ∀ (d : Nat) (j : Json), jsize j ≤ d → ∀ (n m : Nat),
    jsize j < n → jsize j < m → go n j = go m j := by
  intro d
  induction d with
  | zero =>
    intro j hj
    have := jsize_pos j
    omega
  | succ d ih =>
    intro j hj n m hn hm
    obtain ⟨n', rfl⟩ : ∃ n', n = n' + 1 := ⟨n - 1, by omega⟩
    obtain ⟨m', rfl⟩ : ∃ m', m = m' + 1 := ⟨m - 1, by omega⟩
    rw [go_succ, go_succ]
    cases j with
    | obj fs =>
      show goObj (go n') fs = goObj (go m') fs
      unfold goObj
      split
      · rfl
      · rfl
      · split
        · rename_i p hp
          split
          · have hvp : jsize p < jsizeF fs := jsize_lookupField fs _ p hp
            have hsz : jsize (Json.obj fs) = 1 + jsizeF fs := by simp only [jsize]
            have hcongr : mapProps (go n') p = mapProps (go m') p := by
              apply mapProps_congr
              intro v hv _
              exact ih v (by omega) n' m' (by omega) (by omega)
            rw [hcongr]
          · rfl
        · rfl
    | null => rfl
    | bool b => rfl
    | num k => rfl
    | str s => rfl
    | arr xs => rfl

theorem mapProps_shape (f : Json → Option Json) (p q : Json)
    (h : mapProps f p = some q) :
    q.truthy = p.truthy ∧ q.isObjectLike = p.isObjectLike ∧
      (p.isObjectLike = false → q = p) := by
  cases p with
  | obj pfs =>
    have h : (pfs.mapM (mapPropEntry f)).map Json.obj = some q := h
    rcases hm : pfs.mapM (mapPropEntry f) with _ | qfs
    · rw [hm] at h; simp at h
    · rw [hm] at h
      simp at h
      subst h
      exact ⟨rfl, rfl, by intro hcontra; cases hcontra⟩
  | arr xs =>
    have h : (xs.mapM (mapPropElem f)).map Json.arr = some q := h
    rcases hm : xs.mapM (mapPropElem f) with _ | ys
    · rw [hm] at h; simp at h
    · rw [hm] at h
      simp at h
      subst h
      exact ⟨rfl, rfl, by intro hcontra; cases hcontra⟩
  | null =>
    have h' : some Json.null = some q := h
    injection h' with h'
    subst h'
    exact ⟨rfl, rfl, fun _ => rfl⟩
  | bool b =>
    have h' : some (Json.bool b) = some q := h
    injection h' with h'
    subst h'
    exact ⟨rfl, rfl, fun _ => rfl⟩
  | num n =>
    have h' : some (Json.num n) = some q := h
    injection h' with h'
    subst h'
    exact ⟨rfl, rfl, fun _ => rfl⟩
  | str s =>
    have h' : some (Json.str s) = some q := h
    injection h' with h'
    subst h'
    exact ⟨rfl, rfl, fun _ => rfl⟩

theorem mapM_entry_idem (f g : Json → Option Json) :
    ∀ (pfs qfs : List (String × Json)),
    pfs.mapM (mapPropEntry f) = some qfs →
    (∀ kv, kv ∈ pfs → ∀ w, kv.2.isObjectLike = true → f kv.2 = some w →
      w.isObjectLike = true ∧ g w = some w) →
    qfs.mapM (mapPropEntry g) = some qfs := by
  intro pfs
  induction pfs with
  | nil =>
    intro qfs h _
    rw [List.mapM_nil] at h
    injection h with h
    subst h
    rfl
  | cons kv tl ih =>
    intro qfs h hfg
    rw [List.mapM_cons] at h
    rcases hb : mapPropEntry f kv with _ | kv'
    · rw [hb] at h; simp at h
    · rw [hb] at h
      rcases hbs : tl.mapM (mapPropEntry f) with _ | qtl
      · rw [hbs] at h; simp at h
      · rw [hbs] at h
        simp at h
        subst h
        have hkv' : mapPropEntry g kv' = some kv' := by
          unfold mapPropEntry at hb
          cases hol : kv.2.isObjectLike
          · rw [hol] at hb
            simp at hb
            subst hb
            simp [mapPropEntry, hol]
          · rw [hol] at hb
            simp at hb
            obtain ⟨w, hw, hkv⟩ := hb
            obtain ⟨hwo, hgw⟩ := hfg kv (List.mem_cons_self kv tl) w hol hw
            subst hkv
            simp [mapPropEntry, hwo, hgw]
        rw [List.mapM_cons, hkv',
          ih qtl hbs (fun kv2 hm => hfg kv2 (List.mem_cons_of_mem kv hm))]
        rfl

theorem mapM_elem_idem (f g : Json → Option Json) :
    ∀ (xs ys : List Json),
    xs.mapM (mapPropElem f) = some ys →
    (∀ v, v ∈ xs → ∀ w, v.isObjectLike = true → f v = some w →
      w.isObjectLike = true ∧ g w = some w) →
    ys.mapM (mapPropElem g) = some ys := by
  intro xs
  induction xs with
  | nil =>
    intro ys h _
    rw [List.mapM_nil] at h
    injection h with h
    subst h
    rfl
  | cons v tl ih =>
    intro ys h hfg
    rw [List.mapM_cons] at h
    rcases hb : mapPropElem f v with _ | v'
    · rw [hb] at h; simp at h
    · rw [hb] at h
      rcases hbs : tl.mapM (mapPropElem f) with _ | ytl
      · rw [hbs] at h; simp at h
      · rw [hbs] at h
        simp at h
        subst h
        have hv' : mapPropElem g v' = some v' := by
          unfold mapPropElem at hb
          cases hol : v.isObjectLike
          · rw [hol] at hb
            simp at hb
            subst hb
            simp [mapPropElem, hol]
          · rw [hol] at hb
            simp at hb
            obtain ⟨hwo, hgw⟩ := hfg v (List.mem_cons_self v tl) v' hol hb
            simp [mapPropElem, hwo, hgw]
        rw [List.mapM_cons, hv',
          ih ytl hbs (fun v2 hm => hfg v2 (List.mem_cons_of_mem v hm))]
        rfl

theorem mapM_entry_prop (f : Json → Option Json) (Q : Json → Prop) :
    ∀ (pfs qfs : List (String × Json)),
    pfs.mapM (mapPropEntry f) = some qfs →
    (∀ kv, kv ∈ pfs → kv.2.isObjectLike = true → ∀ w, f kv.2 = some w → Q w) →
    ∀ kv', kv' ∈ qfs → kv'.2.isObjectLike = true → Q kv'.2 := by
  intro pfs
  induction pfs with
  | nil =>
    intro qfs h _ kv' hm
    rw [List.mapM_nil] at h
    injection h with h
    subst h
    cases hm
  | cons kv tl ih =>
    intro qfs h hf kv' hm hol
    rw [List.mapM_cons] at h
    rcases hb : mapPropEntry f kv with _ | kv1
    · rw [hb] at h; simp at h
    · rw [hb] at h
      rcases hbs : tl.mapM (mapPropEntry f) with _ | qtl
      · rw [hbs] at h; simp at h
      · rw [hbs] at h
        simp at h
        subst h
        rcases List.mem_cons.mp hm with h1 | h2
        · subst h1
          unfold mapPropEntry at hb
          cases holkv : kv.2.isObjectLike
          · rw [holkv] at hb
            simp at hb
            subst hb
            rw [holkv] at hol
            cases hol
          · rw [holkv] at hb
            simp at hb
            obtain ⟨w, hw, hkv1⟩ := hb
            have hq := hf kv (List.mem_cons_self kv tl) holkv w hw
            subst hkv1
            exact hq
        · exact ih qtl hbs
            (fun a ha => hf a (List.mem_cons_of_mem kv ha)) kv' h2 hol

theorem mapM_elem_prop (f : Json → Option Json) (Q : Json → Prop) :
    ∀ (xs ys : List Json),
    xs.mapM (mapPropElem f) = some ys →
    (∀ v, v ∈ xs → v.isObjectLike = true → ∀ w, f v = some w → Q w) →
    ∀ v', v' ∈ ys → v'.isObjectLike = true → Q v' := by
  intro xs
  induction xs with
  | nil =>
    intro ys h _ v' hm
    rw [List.mapM_nil] at h
    injection h with h
    subst h
    cases hm
  | cons v tl ih =>
    intro ys h hf v' hm hol
    rw [List.mapM_cons] at h
    rcases hb : mapPropElem f v with _ | v1
    · rw [hb] at h; simp at h
    · rw [hb] at h
      rcases hbs : tl.mapM (mapPropElem f) with _ | ytl
      · rw [hbs] at h; simp at h
      · rw [hbs] at h
        simp at h
        subst h
        rcases List.mem_cons.mp hm with h1 | h2
        · subst h1
          unfold mapPropElem at hb
          cases holv : v.isObjectLike
          · rw [holv] at hb
            simp at hb
            subst hb
            rw [holv] at hol
            cases hol
          · rw [holv] at hb
            simp at hb
            exact hf v (List.mem_cons_self v tl) holv v' hb
        · exact ih ytl hbs
            (fun a ha => hf a (List.mem_cons_of_mem v ha)) v' h2 hol

theorem mapProps_idem (f g : Json → Option Json) (p q : Json)
    (h : mapProps f p = some q)
    (hf : ∀ v, jsize v < jsize p → v.isObjectLike = true → ∀ w, f v = some w →
      w.isObjectLike = true ∧ g w = some w) :
    mapProps g q = some q := by
  cases p with
  | obj pfs =>
    have h : (pfs.mapM (mapPropEntry f)).map Json.obj = some q := h
    rcases hm : pfs.mapM (mapPropEntry f) with _ | qfs
    · rw [hm] at h; simp at h
    · rw [hm] at h
      simp at h
      subst h
      have := mapM_entry_idem f g pfs qfs hm (fun kv hmem w hol hw =>
        hf kv.2 (by have := jsize_mem_field pfs kv hmem; simp only [jsize]; omega)
          hol w hw)
      show (qfs.mapM (mapPropEntry g)).map Json.obj = some (Json.obj qfs)
      rw [this]
      rfl
  | arr xs =>
    have h : (xs.mapM (mapPropElem f)).map Json.arr = some q := h
    rcases hm : xs.mapM (mapPropElem f) with _ | ys
    · rw [hm] at h; simp at h
    · rw [hm] at h
      simp at h
      subst h
      have := mapM_elem_idem f g xs ys hm (fun v hmem w hol hw =>
        hf v (by have := jsize_mem_elem xs v hmem; simp only [jsize]; omega)
          hol w hw)
      show (ys.mapM (mapPropElem g)).map Json.arr = some (Json.arr ys)
      rw [this]
      rfl
  | null =>
    have h' : some Json.null = some q := h
    injection h' with h'
    subst h'
    rfl
  | bool b =>
    have h' : some (Json.bool b) = some q := h
    injection h' with h'
    subst h'
    rfl
  | num n =>
    have h' : some (Json.num n) = some q := h
    injection h' with h'
    subst h'
    rfl
  | str s =>
    have h' : some (Json.str s) = some q := h
    injection h' with h'
    subst h'
    rfl

theorem mapProps_childProp (f : Json → Option Json) (Q : Json → Prop) (p q : Json)
    (h : mapProps f p = some q)
    (hf : ∀ v, jsize v < jsize p → v.isObjectLike = true → ∀ w, f v = some w → Q w) :
    ∀ v', v' ∈ propChildren q → v'.isObjectLike = true → Q v' := by
  cases p with
  | obj pfs =>
    have h : (pfs.mapM (mapPropEntry f)).map Json.obj = some q := h
    rcases hm : pfs.mapM (mapPropEntry f) with _ | qfs
    · rw [hm] at h; simp at h
    · rw [hm] at h
      simp at h
      subst h
      intro v' hv' hol
      simp only [propChildren] at hv'
      obtain ⟨kv', hkv', hsnd⟩ := List.mem_map.mp hv'
      subst hsnd
      exact mapM_entry_prop f Q pfs qfs hm (fun kv hmem holkv w hw =>
        hf kv.2 (by have := jsize_mem_field pfs kv hmem; simp only [jsize]; omega)
          holkv w hw) kv' hkv' hol
  | arr xs =>
    have h : (xs.mapM (mapPropElem f)).map Json.arr = some q := h
    rcases hm : xs.mapM (mapPropElem f) with _ | ys
    · rw [hm] at h; simp at h
    · rw [hm] at h
      simp at h
      subst h
      intro v' hv' hol
      simp only [propChildren] at hv'
      exact mapM_elem_prop f Q xs ys hm (fun v hmem holv w hw =>
        hf v (by have := jsize_mem_elem xs v hmem; simp only [jsize]; omega)
          holv w hw) v' hv' hol
  | null =>
    have h' : some Json.null = some q := h
    injection h' with h'
    subst h'
    intro v' hv'
    cases hv'
  | bool b =>
    have h' : some (Json.bool b) = some q := h
    injection h' with h'
    subst h'
    intro v' hv'
    cases hv'
  | num n =>
    have h' : some (Json.num n) = some q := h
    injection h' with h'
    subst h'
    intro v' hv'
    cases hv'
  | str s =>
    have h' : some (Json.str s) = some q := h
    injection h' with h'
    subst h'
    intro v' hv'
    cases hv'

/-! ### The normalization invariant -/

theorem zodMarker_fixRequired (fs : List (String × Json)) :
    zodMarker (Json.obj (fixRequired fs)) = zodMarker (Json.obj fs) :=
  zodMarker_obj_eq _ _ (lookupField_fixRequired_ne fs "_def" (by decide))

theorem zodMarker_setProps (fs : List (String × Json)) (q : Json) :
    zodMarker (Json.obj (setField fs "properties" q)) = zodMarker (Json.obj fs) :=
  zodMarker_obj_eq _ _ (lookupField_setField_ne fs "properties" "_def" q (by decide))

theorem goObj_eq_of_zodFalse (rec : Json → Option Json) (fs : List (String × Json))
    (hz : zodMarker (Json.obj fs) = some false) :
    goObj rec fs =
      match lookupField fs "properties" with
      | some p =>
        if p.truthy then
          (mapProps rec p).map
            (fun q => Json.obj (setField (fixRequired fs) "properties" q))
        else some (.obj (fixRequired fs))
      | none => some (.obj (fixRequired fs)) := by
  unfold goObj
  rw [hz]

/-- An object node with a falsy (or absent) `properties` normalizes to
its `required`-fixed form, which is a fixpoint of normalization and
satisfies the invariant. -/
theorem fixRequired_norm (fs : List (String × Json))
    (hz : zodMarker (Json.obj fs) = some false)
    (hnp : truthyOpt (lookupField fs "properties") = false) :
    toJsonSchemaJ (Json.obj (fixRequired fs)) = some (Json.obj (fixRequired fs)) ∧
    NormedAt (Json.obj (fixRequired fs)) := by
  have hz1 : zodMarker (Json.obj (fixRequired fs)) = some false := by
    rw [zodMarker_fixRequired]; exact hz
  have hp1 : lookupField (fixRequired fs) "properties" = lookupField fs "properties" :=
    lookupField_fixRequired_ne fs "properties" (by decide)
  constructor
  · show goObj (go (jsize (Json.obj (fixRequired fs)))) (fixRequired fs) =
      some (Json.obj (fixRequired fs))
    rw [goObj_eq_of_zodFalse _ _ hz1, hp1]
    rcases hcase : lookupField fs "properties" with _ | p
    · simp [fixRequired_idem]
    · have hptf : p.truthy = false := by rw [hcase] at hnp; exact hnp
      simp [hptf, fixRequired_idem]
  · refine NormedAt.obj _ ?_ ?_
    · intro hol1
      have hol : objLikeFields fs = true := by
        rw [objLikeFields_fixRequired] at hol1; exact hol1
      exact fixRequired_required_arr fs hol
    · intro p hp2 hpt2 v _ _
      rw [hp1] at hp2
      have : truthyOpt (lookupField fs "properties") = true := by
        rw [hp2]; exact hpt2
      rw [this] at hnp
      cases hnp

/-- The workhorse: every successful normalization result is itself a
fixpoint of normalization and satisfies the `NormedAt` invariant. -/
theorem toJsonSchemaJ_sound : ∀ (d : Nat) (j : Json), jsize j ≤ d → ∀ (o : Json),
    toJsonSchemaJ j = some o → toJsonSchemaJ o = some o ∧ NormedAt o := by
  intro d
  induction d with
  | zero =>
    intro j hj
    have := jsize_pos j
    omega
  | succ d ih =>
    intro j hj o h
    have h : goStep (go (jsize j)) j = some o := h
    cases j with
    | null =>
      have h' : some Json.null = some o := h
      injection h' with h'
      subst h'
      exact ⟨rfl, NormedAt.nonObj _ (fun fs hf => Json.noConfusion hf)⟩
    | bool b =>
      have h' : some (Json.bool b) = some o := h
      injection h' with h'
      subst h'
      exact ⟨rfl, NormedAt.nonObj _ (fun fs hf => Json.noConfusion hf)⟩
    | num k =>
      have h' : some (Json.num k) = some o := h
      injection h' with h'
      subst h'
      exact ⟨rfl, NormedAt.nonObj _ (fun fs hf => Json.noConfusion hf)⟩
    | str s =>
      have h' : some (Json.str s) = some o := h
      injection h' with h'
      subst h'
      exact ⟨rfl, NormedAt.nonObj _ (fun fs hf => Json.noConfusion hf)⟩
    | arr xs =>
      have h' : some (Json.arr xs) = some o := h
      injection h' with h'
      subst h'
      exact ⟨rfl, NormedAt.nonObj _ (fun fs hf => Json.noConfusion hf)⟩
    | obj fs =>
      have hobj : goObj (go (jsize (Json.obj fs))) fs = some o := h
      unfold goObj at hobj
      split at hobj
      · simp at hobj
      · simp at hobj
      · rename_i hz
        split at hobj
        · rename_i p hp
          split at hobj
          · rename_i hpt
            -- truthy properties: q is the normalized properties value
            rw [Option.map_eq_some'] at hobj
            obtain ⟨q, hq, ho⟩ := hobj
            subst ho
            -- size bookkeeping
            have hszp : jsize p < jsizeF fs := jsize_lookupField fs _ p hp
            have hszj : jsize (Json.obj fs) = 1 + jsizeF fs := by simp only [jsize]
            -- per-child facts from the induction hypothesis
            have hchild : ∀ v, jsize v < jsize p → v.isObjectLike = true →
                ∀ w, go (jsize (Json.obj fs)) v = some w →
                (w.isObjectLike = true ∧ toJsonSchemaJ w = some w) ∧ NormedAt w := by
              intro v hv hvol w hw
              have hmono : go (jsize (Json.obj fs)) v = toJsonSchemaJ v :=
                go_mono (jsize v) v le_rfl _ _ (by omega) (by omega)
              have htv : toJsonSchemaJ v = some w := by rw [← hmono]; exact hw
              have hihw := ih v (by omega) w htv
              have hshape := go_shape _ v w hw
              exact ⟨⟨by rw [hshape.1]; exact hvol, hihw.1⟩, hihw.2⟩
            -- facts about the result object
            have hzg : zodMarker
                (Json.obj (setField (fixRequired fs) "properties" q)) = some false := by
              rw [zodMarker_setProps, zodMarker_fixRequired]; exact hz
            have hpg : lookupField (setField (fixRequired fs) "properties" q)
                "properties" = some q := lookupField_setField_eq _ _ _
            have holf : objLikeFields fs = true := by
              unfold objLikeFields
              rw [hp]
              show (isTypeObject fs || p.truthy) = true
              rw [hpt]
              simp
            obtain ⟨r, hr⟩ := fixRequired_required_arr fs holf
            have hreqg : lookupField (setField (fixRequired fs) "properties" q)
                "required" = some (Json.arr r) := by
              rw [lookupField_setField_ne _ _ _ _ (by decide)]; exact hr
            have hqshape := mapProps_shape _ p q hq
            have hqt : q.truthy = true := by rw [hqshape.1]; exact hpt
            have holg : objLikeFields
                (setField (fixRequired fs) "properties" q) = true := by
              unfold objLikeFields
              rw [hpg]
              show (_ || q.truthy) = true
              rw [hqt]
              simp
            have hfixg : fixRequired (setField (fixRequired fs) "properties" q) =
                setField (fixRequired fs) "properties" q := by
              apply fixRequired_of_settled _ holg
              · rw [hreqg]; rfl
              · unfold requiredIsArray; rw [hreqg]; rfl
            have hszq : jsize q <
                jsizeF (setField (fixRequired fs) "properties" q) :=
              jsize_lookupField _ _ _ hpg
            have hszg : jsize (Json.obj (setField (fixRequired fs) "properties" q)) =
                1 + jsizeF (setField (fixRequired fs) "properties" q) := by
              simp only [jsize]
            constructor
            · -- idempotence: the output normalizes to itself
              show goObj
                (go (jsize (Json.obj (setField (fixRequired fs) "properties" q))))
                (setField (fixRequired fs) "properties" q) = some _
              rw [goObj_eq_of_zodFalse _ _ hzg, hpg]
              have hmq : mapProps
                  (go (jsize (Json.obj (setField (fixRequired fs) "properties" q))))
                  q = some q := by
                have hcongr : mapProps
                    (go (jsize (Json.obj (setField (fixRequired fs) "properties" q))))
                    q = mapProps toJsonSchemaJ q := by
                  apply mapProps_congr
                  intro v hv _
                  exact go_mono (jsize v) v le_rfl _ _ (by omega) (by omega)
                rw [hcongr]
                exact mapProps_idem _ _ p q hq
                  (fun v hv hvol w hw => (hchild v hv hvol w hw).1)
              simp [hqt, hmq, hfixg, setField_self _ _ _ hpg]
            · -- the invariant on the output
              refine NormedAt.obj _ (fun _ => ⟨r, hreqg⟩) ?_
              intro p2 hp2 _ v hv hvol
              rw [hpg] at hp2
              injection hp2 with hp2
              subst hp2
              exact mapProps_childProp _ NormedAt p q hq
                (fun v' hv' hvol' w hw => (hchild v' hv' hvol' w hw).2) v hv hvol
          · rename_i hpt
            -- properties present but falsy
            injection hobj with hobj
            subst hobj
            have hptf : p.truthy = false := by
              cases hc : p.truthy
              · rfl
              · exact absurd hc hpt
            exact fixRequired_norm fs hz (by rw [hp]; exact hptf)
        · rename_i hp
          -- properties absent
          injection hobj with hobj
          subst hobj
          exact fixRequired_norm fs hz (by rw [hp]; rfl)


/-! ## The full toJsonSchema surface (validateSchema + conversion) -/

/-- Conversion failures of the modelled `toJsonSchema`:
`valueError` is the repository's own `ValueError` thrown by
`validateSchema`; `outsideModel` stands for every computation the model
does not follow (conversion of a genuine Zod schema by the external
`zod-to-json-schema` library, or a `TypeError` thrown by the Zod test
itself). -/
inductive ConvError where
  | valueError (message : String)
  | outsideModel
deriving DecidableEq, Repr

/-- The input universe of `toJsonSchema`: a `ZodEffects` schema (built by
refine, superRefine, transform, ...), some other genuine Zod schema, or a
raw JSON schema object. -/
inductive SchemaLike where
  | zodEffects
  | zodSchema
  | raw (j : Json)

/-- The function `validateSchema` from `src/internals/helpers/schema.ts`: it throws a
`ValueError` exactly when the schema is an instance of `ZodEffects`; any
other input — including every plain JSON value the recursion later feeds
back in — passes. -/
def validateSchema : SchemaLike → Except ConvError Unit
  | .zodEffects => .error (.valueError
      "zod effects (refine, superRefine, transform, ...) cannot be converted to JSONSchema!")
  | _ => .ok ()

/-- The function `toJsonSchema` from `src/internals/helpers/schema.ts`: validate, then
convert.  A genuine Zod schema is converted by the external
`zod-to-json-schema` library (outside the model, `outsideModel`); a raw
schema object is normalized by `toJsonSchemaJ`. -/
def toJsonSchema (s : SchemaLike) : Except ConvError Json :=
  match validateSchema s with
  | .error e => .error e
  | .ok _ =>
    match s with
    | .zodEffects => .error .outsideModel
    | .zodSchema => .error .outsideModel
    | .raw j =>
      match toJsonSchemaJ j with
      | some o => .ok o
      | none => .error .outsideModel

/-- The `required` value the fix leaves on a visited object node: falsy
`required` becomes `[]`, truthy non-array `required` becomes the keys of
`properties`, an array is kept. -/
def requiredResult (fs : List (String × Json)) : Option Json :=
  if !truthyOpt (lookupField fs "required") then some (.arr [])
  else if !requiredIsArray fs then
    some (.arr ((keysOfProps (lookupField fs "properties")).map Json.str))
  else lookupField fs "required"

theorem lookupField_fixRequired_required (fs : List (String × Json))
    (hol : objLikeFields fs = true) :
    lookupField (fixRequired fs) "required" = requiredResult fs := by
  unfold fixRequired requiredResult
  cases ht : truthyOpt (lookupField fs "required")
  · simp [hol, ht, lookupField_setField_eq]
  · cases ha : requiredIsArray fs
    · simp [hol, ht, ha, lookupField_setField_eq]
    · simp [hol, ht, ha]

/-- On a visited object node, the output is an object whose `required`
value is exactly `requiredResult`. -/
theorem toJsonSchemaJ_obj_required (fs : List (String × Json)) (o : Json)
    (h : toJsonSchemaJ (Json.obj fs) = some o)
    (hol : objLikeFields fs = true) :
    ∃ gs, o = Json.obj gs ∧ lookupField gs "required" = requiredResult fs := by
  have hobj : goObj (go (jsize (Json.obj fs))) fs = some o := h
  unfold goObj at hobj
  split at hobj
  · simp at hobj
  · simp at hobj
  · split at hobj
    · split at hobj
      · rw [Option.map_eq_some'] at hobj
        obtain ⟨q, hq, ho⟩ := hobj
        subst ho
        refine ⟨_, rfl, ?_⟩
        rw [lookupField_setField_ne _ _ _ _ (by decide)]
        exact lookupField_fixRequired_required fs hol
      · injection hobj with hobj
        subst hobj
        exact ⟨_, rfl, lookupField_fixRequired_required fs hol⟩
    · injection hobj with hobj
      subst hobj
      exact ⟨_, rfl, lookupField_fixRequired_required fs hol⟩

/-! ### Claims about the schema normalizer -/

/-- C4: schema normalization is idempotent — whenever `toJsonSchema`
succeeds, feeding its output (always a raw schema object) back in
succeeds and returns the very same value. -/
theorem toJsonSchema_idempotent (s : SchemaLike) (o : Json)
    (h : toJsonSchema s = .ok o) :
    toJsonSchema (.raw o) = .ok o := by
  cases s with
  | zodEffects => simp [toJsonSchema, validateSchema] at h
  | zodSchema => simp [toJsonSchema, validateSchema] at h
  | raw j =>
    have hm : (match toJsonSchemaJ j with
      | some o2 => (Except.ok o2 : Except ConvError Json)
      | none => .error .outsideModel) = .ok o := h
    rcases hj : toJsonSchemaJ j with _ | o2
    · rw [hj] at hm
      simp at hm
    · rw [hj] at hm
      injection hm with hm
      subst hm
      have hidem := (toJsonSchemaJ_sound (jsize j) j le_rfl o2 hj).1
      show (match toJsonSchemaJ o2 with
        | some o3 => (Except.ok o3 : Except ConvError Json)
        | none => .error .outsideModel) = .ok o2
      rw [hidem]

/-- Witness for C4: a concrete object schema normalizes, and normalizing
the result again returns it unchanged. -/
theorem toJsonSchema_idempotent_witness :
    toJsonSchema (.raw (.obj [("type", Json.str "object")])) =
      .ok (.obj [("type", Json.str "object"), ("required", Json.arr [])]) ∧
    toJsonSchema (.raw (.obj [("type", Json.str "object"),
      ("required", Json.arr [])])) =
      .ok (.obj [("type", Json.str "object"), ("required", Json.arr [])]) :=
  ⟨rfl, toJsonSchema_idempotent (.raw (.obj [("type", Json.str "object")])) _ rfl⟩

/-- Full-depth check of C5's original claim: every node passing the
object guard, at any nesting depth (under `items`, inside array elements,
anywhere), has a `required` field holding an array.  The fuel bounds the
search depth, and `false` is only ever returned on a genuine violation
within that depth. -/
def requiredEverywhere : Nat → Json → Bool
  | 0, _ => true
  | n + 1, j =>
    match j with
    | .obj fs =>
      (!objLikeFields fs || requiredIsArray fs) &&
        fs.all (fun kv => requiredEverywhere n kv.2)
    | .arr xs => xs.all (fun v => requiredEverywhere n v)
    | _ => true

/-- A schema whose nested object sits under `items`, a position the
normalizer never visits. -/
def schemaWithItems : Json :=
  .obj [("type", .str "object"),
    ("properties", .obj [("a", .obj [("type", .str "array"),
      ("items", .obj [("type", .str "object")])])])]

/-- The normalizer's output on `schemaWithItems`. -/
def schemaWithItemsOut : Json :=
  .obj [("type", .str "object"),
    ("properties", .obj [("a", .obj [("type", .str "array"),
      ("items", .obj [("type", .str "object")])])]),
    ("required", .arr [])]

/-- C5 counterexample: normalization succeeds on `schemaWithItems`, but
its output contains an object-type node (the one under `items`) with no
`required` field at all — so "every object-type node at every nesting
depth has a required array" is false as stated. -/
theorem toJsonSchema_required_depth_counterexample :
    toJsonSchema (.raw schemaWithItems) = .ok schemaWithItemsOut ∧
    requiredEverywhere 10 schemaWithItemsOut = false :=
  ⟨rfl, rfl⟩

/-- C5 (amended): in the output of `toJsonSchema`, every object-guard
node along the normalizer's own traversal — the root and, recursively,
the object-like values of a truthy `properties` field — has a `required`
field holding an array; a root object node whose source `required` was
absent or falsy gets the empty array.  Object nodes reachable only
through other keywords (`items`, array elements, ...) are left exactly
as they were. -/
theorem toJsonSchema_required_on_visited (s : SchemaLike) (o : Json)
    (h : toJsonSchema s = .ok o) :
    NormedAt o ∧
    (∀ fs, s = SchemaLike.raw (Json.obj fs) → objLikeFields fs = true →
      truthyOpt (lookupField fs "required") = false →
      ∃ gs, o = Json.obj gs ∧ lookupField gs "required" = some (Json.arr [])) := by
  constructor
  · cases s with
    | zodEffects => simp [toJsonSchema, validateSchema] at h
    | zodSchema => simp [toJsonSchema, validateSchema] at h
    | raw j =>
      have hm : (match toJsonSchemaJ j with
        | some o2 => (Except.ok o2 : Except ConvError Json)
        | none => .error .outsideModel) = .ok o := h
      rcases hj : toJsonSchemaJ j with _ | o2
      · rw [hj] at hm
        simp at hm
      · rw [hj] at hm
        injection hm with hm
        subst hm
        exact (toJsonSchemaJ_sound (jsize j) j le_rfl o2 hj).2
  · intro fs hs hol hreq
    subst hs
    have hm : (match toJsonSchemaJ (Json.obj fs) with
      | some o2 => (Except.ok o2 : Except ConvError Json)
      | none => .error .outsideModel) = .ok o := h
    rcases hj : toJsonSchemaJ (Json.obj fs) with _ | o2
    · rw [hj] at hm
      simp at hm
    · rw [hj] at hm
      injection hm with hm
      subst hm
      obtain ⟨gs, rfl, hg⟩ := toJsonSchemaJ_obj_required fs o2 hj hol
      refine ⟨gs, rfl, ?_⟩
      rw [hg]
      unfold requiredResult
      simp [hreq]

/-- Witness for the amended C5 at `schemaWithItems` (whose root has no
explicit `required`). -/
theorem toJsonSchema_required_on_visited_witness :
    NormedAt schemaWithItemsOut ∧
    ∃ gs, schemaWithItemsOut = Json.obj gs ∧
      lookupField gs "required" = some (Json.arr []) := by
  have h := toJsonSchema_required_on_visited (.raw schemaWithItems)
    schemaWithItemsOut rfl
  exact ⟨h.1, h.2 _ rfl rfl rfl⟩

/-- A visited object node whose `required` is present but falsy
(`required: false`). -/
def schemaFalsyRequired : Json :=
  .obj [("type", .str "object"),
    ("properties", .obj [("a", .obj [("type", .str "string")])]),
    ("required", .bool false)]

/-- C10 counterexample: on a node whose `required` is present but not an
array and falsy (`false`), the code replaces it with the empty array,
not with the keys of `properties` (here `["a"]`) as the claim states. -/
theorem toJsonSchema_falsy_required_counterexample :
    toJsonSchema (.raw schemaFalsyRequired) =
      .ok (.obj [("type", Json.str "object"),
        ("properties", .obj [("a", .obj [("type", Json.str "string")])]),
        ("required", Json.arr [])]) ∧
    lookupField [("type", Json.str "object"),
        ("properties", Json.obj [("a", Json.obj [("type", Json.str "string")])]),
        ("required", Json.arr [])] "required" = some (Json.arr []) ∧
    Json.arr [] ≠ Json.arr [Json.str "a"] := by
  refine ⟨rfl, rfl, ?_⟩
  simp

/-- C10 (amended): on a visited object-guard node whose `required` is
present, truthy, and not an array, the fix replaces it with the keys of
`properties` (with the empty-object fallback); a present-but-falsy
`required` (false, 0, "", null) is replaced by the empty array instead. -/
theorem toJsonSchema_nonarray_required (fs : List (String × Json)) (r : Json)
    (o : Json)
    (h : toJsonSchema (.raw (Json.obj fs)) = .ok o)
    (hr : lookupField fs "required" = some r)
    (hol : objLikeFields fs = true) :
    (r.truthy = true → r.isArray = false →
      ∃ gs, o = Json.obj gs ∧ lookupField gs "required" =
        some (Json.arr ((keysOfProps (lookupField fs "properties")).map Json.str))) ∧
    (r.truthy = false →
      ∃ gs, o = Json.obj gs ∧ lookupField gs "required" = some (Json.arr [])) := by
  have hm : (match toJsonSchemaJ (Json.obj fs) with
    | some o2 => (Except.ok o2 : Except ConvError Json)
    | none => .error .outsideModel) = .ok o := h
  rcases hj : toJsonSchemaJ (Json.obj fs) with _ | o2
  · rw [hj] at hm
    simp at hm
  · rw [hj] at hm
    injection hm with hm
    subst hm
    obtain ⟨gs, rfl, hg⟩ := toJsonSchemaJ_obj_required fs o2 hj hol
    constructor
    · intro hrt hra
      refine ⟨gs, rfl, ?_⟩
      rw [hg]
      unfold requiredResult
      have h1 : truthyOpt (lookupField fs "required") = true := by
        rw [hr]; exact hrt
      have h2 : requiredIsArray fs = false := by
        unfold requiredIsArray; rw [hr]; exact hra
      simp [h1, h2]
    · intro hrt
      have h1 : truthyOpt (lookupField fs "required") = false := by
        rw [hr]; exact hrt
      refine ⟨gs, rfl, ?_⟩
      rw [hg]
      unfold requiredResult
      simp [h1]

/-- Witness for the amended C10: a truthy non-array `required` (the
string `"x"`) becomes the property-key list `["a"]`, and a falsy one
(`false`) becomes `[]`. -/
theorem toJsonSchema_nonarray_required_witness :
    (∃ gs, (Json.obj [("type", Json.str "object"),
        ("properties", Json.obj [("a", Json.obj [("type", Json.str "string")])]),
        ("required", Json.arr [Json.str "a"])]) = Json.obj gs ∧
      lookupField gs "required" = some (Json.arr [Json.str "a"])) ∧
    (∃ gs, (Json.obj [("type", Json.str "object"),
        ("properties", Json.obj [("a", Json.obj [("type", Json.str "string")])]),
        ("required", Json.arr [])]) = Json.obj gs ∧
      lookupField gs "required" = some (Json.arr [])) := by
  have h1 := toJsonSchema_nonarray_required
    [("type", Json.str "object"),
     ("properties", Json.obj [("a", Json.obj [("type", Json.str "string")])]),
     ("required", Json.str "x")] (Json.str "x") _ rfl rfl rfl
  have h2 := toJsonSchema_nonarray_required
    [("type", Json.str "object"),
     ("properties", Json.obj [("a", Json.obj [("type", Json.str "string")])]),
     ("required", Json.bool false)] (Json.bool false) _ rfl rfl rfl
  exact ⟨h1.1 rfl rfl, h2.2 rfl⟩

/-- C7: `toJsonSchema` raises the repository's `ValueError` exactly on a
`ZodEffects` schema (refine, superRefine, transform, ...); for every
other input no `ValueError` is produced — the nested recursive calls
re-run `validateSchema` only on plain JSON values, which are never
`ZodEffects` instances. -/
theorem toJsonSchema_valueError_iff (s : SchemaLike) :
    (∃ m, toJsonSchema s = .error (.valueError m)) ↔ s = .zodEffects := by
  constructor
  · rintro ⟨m, hm⟩
    cases s with
    | zodEffects => rfl
    | zodSchema => simp [toJsonSchema, validateSchema] at hm
    | raw j =>
      have hm2 : (match toJsonSchemaJ j with
        | some o => (Except.ok o : Except ConvError Json)
        | none => .error .outsideModel) = .error (.valueError m) := hm
      rcases hj : toJsonSchemaJ j with _ | o
      · rw [hj] at hm2
        simp at hm2
      · rw [hj] at hm2
        simp at hm2
  · intro hs
    subst hs
    exact ⟨_, rfl⟩

/-- Witness for C7: the `ZodEffects` input does produce a `ValueError`. -/
theorem toJsonSchema_valueError_iff_witness :
    ∃ m, toJsonSchema .zodEffects = Except.error (ConvError.valueError m) :=
  (toJsonSchema_valueError_iff .zodEffects).mpr rfl


/-! ## Defensive parser (parseBrokenJson) -/

/-- JavaScript's `String.prototype.trim`, over the character list. -/
def jsTrim (s : String) : String :=
  String.mk (((s.data.dropWhile Char.isWhitespace).reverse.dropWhile
    Char.isWhitespace).reverse)

/-- Modelled from the spec: the balanced-span scan of `findFirstPair`
(`src/internals/helpers/string.ts` is not part of the excerpt) — having
consumed an opening delimiter, track the nesting depth and return the
span (delimiters included) once it closes; `none` when it never does. -/
def scanBalanced (openD closeD : Char) :
    List Char → Nat → List Char → Option (List Char)
  | [], _, _ => none
  | c :: rest, depth, acc =>
    if c = closeD then
      if depth = 1 then some ((c :: acc).reverse)
      else scanBalanced openD closeD rest (depth - 1) (c :: acc)
    else if c = openD then
      scanBalanced openD closeD rest (depth + 1) (c :: acc)
    else
      scanBalanced openD closeD rest depth (c :: acc)

/-- Modelled from the spec: scan for the first opening delimiter, then
take the balanced span from there. -/
def findOpen (openD closeD : Char) : List Char → Option (List Char)
  | [] => none
  | c :: rest =>
    if c = openD then scanBalanced openD closeD rest 1 [c]
    else findOpen openD closeD rest

/-- Modelled from the spec: `findFirstPair(text, [open, close])` returns
the first balanced span bounded by the delimiter pair (the `outer`
field), or fails when no balanced span exists. -/
def findFirstPair (s : String) (openD closeD : Char) : Option String :=
  (findOpen openD closeD s.data).map String.mk

/-- The function `parseBrokenJson` from `src/internals/helpers/schema.ts`.  The
platform `JSON.parse` and the third-party `jsonrepair` library are
parameters (`jsonParse`, `repairText`), each returning `.error` where the
real function throws.  The repository's own control flow is modelled
exactly: normalize absent input to the empty string and trim; try a
strict parse; on failure, when a delimiter pair is configured, extract
the first balanced span (falling back to the whole trimmed text when none
is found); repair and strictly parse; and catch every remaining failure
into `none` (the JS `null`) rather than raising. -/
def parseBrokenJson (jsonParse : String → Except String Json)
    (repairText : String → Except String String)
    (input : Option String) (pair : Option (Char × Char)) : Option Json :=
  let inp := jsTrim (input.getD "")
  match jsonParse inp with
  | .ok v => some v
  | .error _ =>
    let outer :=
      match pair with
      | some pr => (findFirstPair inp pr.1 pr.2).getD inp
      | none => inp
    match repairText outer with
    | .error _ => none
    | .ok repaired =>
      match jsonParse repaired with
      | .ok v => some v
      | .error _ => none

/-- C6: for every input (absent input normalizing to the empty string)
and every delimiter-pair option, `parseBrokenJson` follows exactly the
spec's recovery policy and never raises: the strictly-parsed value is
returned when the trimmed input is valid JSON; otherwise the balanced
delimiter span — or the whole trimmed text when no span is found or no
pair is configured — is repaired and strictly parsed, with every failure
along that path (the repair itself included) turned into `none`; absent
input behaves exactly like the empty string, and when the empty string
neither parses nor repairs, `parseBrokenJson undefined` is `none`. -/
theorem parseBrokenJson_policy (jsonParse : String → Except String Json)
    (repairText : String → Except String String)
    (input : Option String) (pair : Option (Char × Char)) :
    (∀ v, jsonParse (jsTrim (input.getD "")) = .ok v →
      parseBrokenJson jsonParse repairText input pair = some v) ∧
    (∀ e, jsonParse (jsTrim (input.getD "")) = .error e →
      parseBrokenJson jsonParse repairText input pair =
        (match repairText (match pair with
            | some pr => (findFirstPair (jsTrim (input.getD "")) pr.1 pr.2).getD
                (jsTrim (input.getD ""))
            | none => jsTrim (input.getD "")) with
          | .ok repaired => (jsonParse repaired).toOption
          | .error _ => none)) ∧
    (parseBrokenJson jsonParse repairText none pair =
      parseBrokenJson jsonParse repairText (some "") pair) ∧
    ((∃ e, jsonParse "" = .error e) → (∃ e, repairText "" = .error e) →
      parseBrokenJson jsonParse repairText none pair = none) := by
  refine ⟨?_, ?_, rfl, ?_⟩
  · intro v hv
    simp [parseBrokenJson, hv]
  · intro e he
    simp only [parseBrokenJson, he]
    rcases hr : repairText (match pair with
        | some pr => (findFirstPair (jsTrim (input.getD "")) pr.1 pr.2).getD
            (jsTrim (input.getD ""))
        | none => jsTrim (input.getD "")) with e2 | rep
    · rfl
    · rcases hp2 : jsonParse rep with e3 | v
      · simp [Except.toOption, hp2]
      · simp [Except.toOption, hp2]
  · rintro ⟨e1, he1⟩ ⟨e2, he2⟩
    have htrim : jsTrim "" = "" := rfl
    cases pair with
    | none => simp [parseBrokenJson, htrim, he1, he2]
    | some pr =>
      obtain ⟨o, c⟩ := pr
      have houter : (findFirstPair "" o c).getD "" = "" := rfl
      simp [parseBrokenJson, htrim, he1, he2, houter]

/-- Witness for C6: with a parser and repairer that always fail, absent
input yields `none`. -/
theorem parseBrokenJson_policy_witness :
    parseBrokenJson (fun _ => .error "bad") (fun _ => .error "bad") none
      (some ('<', '>')) = none := by
  have h := parseBrokenJson_policy (fun _ => .error "bad")
    (fun _ => .error "bad") none (some ('<', '>'))
  exact h.2.2.2 ⟨"bad", rfl⟩ ⟨"bad", rfl⟩

/-! ## Validator compilation (createSchemaValidator) -/

/-- The function `createSchemaValidator` from `src/internals/helpers/schema.ts`:
normalize the schema, then compile the canonical result with Ajv.
Ajv's `compile` (an external library) is a parameter producing either a
validator or a synchronous compile-time error; the repository's catch
block logs and rethrows that very error, so the creation call either
returns the compiled validator or surfaces the compile error itself. -/
def createSchemaValidator {V : Type} (compile : Json → Except String V)
    (s : SchemaLike) : Except (ConvError ⊕ String) V :=
  match toJsonSchema s with
  | .error e => .error (.inl e)
  | .ok canonical =>
    match compile canonical with
    | .ok v => .ok v
    | .error err => .error (.inr err)

/-- C8: with Ajv's behaviour modelled from the spec — `compile` succeeds
exactly on internally consistent canonical schemas and otherwise reports
a `SchemaCompileError` synchronously — `createSchemaValidator` surfaces
that error as the result of the creation call itself for every
inconsistent schema (the failure is never deferred to a later validation
call, since no validator value exists to call), and returns the compiled
validator for every consistent schema. -/
theorem createSchemaValidator_compile_time {V : Type}
    (compile : Json → Except String V) (consistent : Json → Bool)
    (hc : ∀ c, (∃ v, compile c = .ok v) ↔ consistent c = true)
    (s : SchemaLike) (canonical : Json)
    (h : toJsonSchema s = .ok canonical) :
    (consistent canonical = false →
      ∃ e, createSchemaValidator compile s = .error (.inr e) ∧
        compile canonical = .error e) ∧
    (consistent canonical = true →
      ∃ v, createSchemaValidator compile s = .ok v ∧
        compile canonical = .ok v) := by
  constructor
  · intro hcons
    rcases hcomp : compile canonical with e | v
    · exact ⟨e, by simp [createSchemaValidator, h, hcomp], rfl⟩
    · exfalso
      have := (hc canonical).mp ⟨v, hcomp⟩
      rw [this] at hcons
      cases hcons
  · intro hcons
    obtain ⟨v, hv⟩ := (hc canonical).mpr hcons
    exact ⟨v, by simp [createSchemaValidator, h, hv], hv⟩

/-- Witness for C8 on a concrete consistent schema. -/
theorem createSchemaValidator_compile_time_witness :
    ∃ v, createSchemaValidator (V := Unit) (fun _ => .ok ())
      (.raw (.obj [("type", Json.str "object")])) = .ok v := by
  have h := createSchemaValidator_compile_time (V := Unit)
    (fun _ => .ok ()) (fun _ => true)
    (fun c => ⟨fun _ => rfl, fun _ => ⟨(), rfl⟩⟩)
    (.raw (.obj [("type", Json.str "object")]))
    (.obj [("type", Json.str "object"), ("required", Json.arr [])]) rfl
  obtain ⟨v, hv, _⟩ := h.2 rfl
  exact ⟨v, hv⟩

end Bee
